import Mathlib

/-!
Verification of the block-cipher mode-of-operation layer
(`src/main.rs`: `pad`, `un_pad`, `group`, `un_group`, ECB/CBC/CTR modes,
`increment_counter`, `xor_arrays`, `concat_arrays`).

Embedding conventions:
* A byte is a `Nat` (with `< 256` carried as a hypothesis where it matters);
  a byte sequence (`Vec<u8>`) is a `List Nat`; a 16-byte block (`[u8; 16]`)
  is a `List Nat` of length 16.
* The block-cipher collaborator (`aes_encrypt` / `aes_decrypt` from the
  external `aes` crate) is an explicit function parameter
  `E D : List Nat → List Nat → List Nat` (block, key ↦ block), as the spec
  treats it as an opaque external collaborator.
* The random IV / nonce (`rand::random()`) is an explicit parameter.
* Partiality: a Rust panic (out-of-bounds index, `Option::unwrap` on `None`,
  `u8` arithmetic underflow in a debug build) is modelled as `Option.none`;
  the source functions return plain `Vec<u8>` and have no error results.
-/

/-- Rust `v[i]` (panicking read): `none` models the out-of-bounds panic. -/
def getIdx {α : Type} (l : List α) (i : Nat) : Option α :=
  l.get? i

/-- Rust `v[i] = x` (panicking write through `IndexMut`): `none` models the
out-of-bounds panic. -/
def setIdx {α : Type} (l : List α) (i : Nat) (x : α) : Option (List α) :=
  if i < l.length then some (l.set i x) else none

/-- Rust `Vec::remove(i)`: `none` models the out-of-bounds panic. -/
def removeAt {α : Type} (l : List α) (i : Nat) : Option (List α) :=
  if i < l.length then some (l.eraseIdx i) else none

/-- Popping the last element `m` times (`for _ in 0..m { data.pop(); }`);
`Vec::pop` on an empty vector is a no-op returning `None`, matching
`List.dropLast [] = []`. -/
def popN (l : List Nat) : Nat → List Nat
  | 0 => l
  | m + 1 => popN l.dropLast m

/-- `pad` from the source: `k = 16 - len % 16` bytes, each of value `k`,
are pushed onto the end of the data. -/
def pad (data : List Nat) : List Nat :=
  data ++ List.replicate (16 - data.length % 16) (16 - data.length % 16)

/-- `un_pad` from the source: pop the last byte `k` (`unwrap` panics on an
empty vector, modelled by `none`), then pop `k - 1` further bytes.  The
subtraction `k - 1` is `u8` arithmetic: for `k = 0` it underflows, which
panics in a debug build (modelled by `none`).  No validation of the popped
bytes is performed. -/
def un_pad (data : List Nat) : Option (List Nat) :=
  match data.getLast? with
  | none => none
  | some k =>
    if k = 0 then none
    else some (popN data.dropLast (k - 1))

/-- Fuel-indexed helper for `group`; the fuel (an upper bound on the number
of loop iterations, at least `data.length`) makes the recursion structural.
The source's `while` loop takes the slice `data[i .. i+16]`, which panics
when fewer than 16 bytes remain (`none`). -/
def groupF : Nat → List Nat → Option (List (List Nat))
  | _, [] => some []
  | 0, _ :: _ => none
  | fuel + 1, a :: rest =>
    if 16 ≤ (a :: rest).length then
      match groupF fuel ((a :: rest).drop 16) with
      | some bs => some ((a :: rest).take 16 :: bs)
      | none => none
    else none

/-- `group` from the source: split into consecutive 16-byte blocks; panics
(`none`) when the length is not a multiple of 16. -/
def group (data : List Nat) : Option (List (List Nat)) :=
  groupF data.length data

/-- `un_group` from the source: `Vec::concat`. -/
def un_group (blocks : List (List Nat)) : List Nat :=
  blocks.flatten

/-- `xor_arrays` from the source: byte-wise XOR of two 16-byte blocks. -/
def xor_arrays (a b : List Nat) : List Nat :=
  List.zipWith Nat.xor a b

/-- `concat_arrays` from the source: the first 8 bytes of `arr1` (the nonce
block) followed by the 8 bytes of `arr2` (the counter). -/
def concat_arrays (arr1 arr2 : List Nat) : List Nat :=
  arr1.take 8 ++ arr2.take 8

/-- Little-endian core of `increment_counter`: the source walks the bytes
from least significant (index 7) to most significant, zeroing `0xFF` bytes
until the first byte below `0xFF`, which is incremented (then `break`). -/
def incLE : List Nat → List Nat
  | [] => []
  | b :: rest => if b = 255 then 0 :: incLE rest else (b + 1) :: rest

/-- `increment_counter` from the source, acting on a big-endian byte list
(least-significant byte last, as in the Rust array). -/
def increment_counter (c : List Nat) : List Nat :=
  (incLE c.reverse).reverse

/-- Value of a little-endian byte list. -/
def fromLE : List Nat → Nat
  | [] => 0
  | b :: rest => b + 256 * fromLE rest

/-- Value of a big-endian byte list (the spec's reading of the counter). -/
def fromBE (c : List Nat) : Nat :=
  fromLE c.reverse

/-- `ecb_encrypt` from the source: pad, group, encrypt each block with the
collaborator `E` under `key`, concatenate. -/
def ecb_encrypt (E : List Nat → List Nat → List Nat)
    (plain_text key : List Nat) : Option (List Nat) :=
  match group (pad plain_text) with
  | none => none
  | some blocks => some (un_group (blocks.map (fun b => E b key)))

/-- `ecb_decrypt` from the source: group, decrypt each block with the
collaborator `D` under `key`, concatenate, un-pad. -/
def ecb_decrypt (D : List Nat → List Nat → List Nat)
    (cipher_text key : List Nat) : Option (List Nat) :=
  match group cipher_text with
  | none => none
  | some ciphers => un_pad (un_group (ciphers.map (fun c => D c key)))

/-- One iteration of the `cbc_encrypt` loop.  The state is the pair
`(ciphers, nonce)` the source mutates.  The source reads `blocks[i]` and
assigns into `ciphers[i]`; both indexings can go out of bounds (`none`). -/
def cbcEncStep (E : List Nat → List Nat → List Nat) (key : List Nat)
    (blocks : List (List Nat)) (st : Option (List (List Nat) × List Nat))
    (i : Nat) : Option (List (List Nat) × List Nat) :=
  match st with
  | none => none
  | some (ciphers, nonce) =>
    match getIdx blocks i with
    | none => none
    | some bi =>
      let c := E (xor_arrays bi nonce) key
      match setIdx ciphers i c with
      | none => none
      | some ciphers2 => some (ciphers2, c)

/-- `cbc_encrypt` from the source.  `iv` is the random block the source
draws from `rand::random()`.  The source initialises `ciphers = vec![iv]`
and then runs `cbcEncStep` for `i` in `1 ..= blocks.len()`. -/
def cbc_encrypt (E : List Nat → List Nat → List Nat)
    (plain_text key iv : List Nat) : Option (List Nat) :=
  match group (pad plain_text) with
  | none => none
  | some blocks =>
    match (List.range' 1 blocks.length).foldl (cbcEncStep E key blocks)
        (some ([iv], iv)) with
    | none => none
    | some (ciphers, _) => some (un_group ciphers)

/-- `cbc_decrypt` from the source: read `ciphers[0]` as the IV and remove
it, then for `i` in `0 .. ciphers.len()` assign
`blocks[i] = xor_arrays(aes_decrypt(ciphers[i]), nonce)` into the empty
vector `blocks` (an out-of-bounds write, `none`), update the chaining value
to `blocks[i]` (the recovered plaintext block), finally `blocks.remove(0)`
and un-pad. -/
def cbc_decrypt (D : List Nat → List Nat → List Nat)
    (cipher_text key : List Nat) : Option (List Nat) :=
  match group cipher_text with
  | none => none
  | some ciphers0 =>
    match getIdx ciphers0 0 with
    | none => none
    | some iv0 =>
      match removeAt ciphers0 0 with
      | none => none
      | some ciphers =>
        let step : Option (List (List Nat) × List Nat) → Nat →
            Option (List (List Nat) × List Nat) := fun st i =>
          match st with
          | none => none
          | some (blocks, nonce) =>
            match getIdx ciphers i with
            | none => none
            | some ci =>
              let b := xor_arrays (D ci key) nonce
              match setIdx blocks i b with
              | none => none
              | some blocks2 =>
                match getIdx blocks2 i with
                | none => none
                | some bi => some (blocks2, bi)
        match (List.range ciphers.length).foldl step (some ([], iv0)) with
        | none => none
        | some (blocks, _) =>
          match removeAt blocks 0 with
          | none => none
          | some blocks2 => un_pad (un_group blocks2)

/-- One iteration of the `ctr_encrypt` loop.  The state is the pair
`(ciphers, counter)` the source mutates (`nonce` is fixed).  Each round
encrypts `concat_arrays(nonce, counter)`, reads `blocks[i]` and assigns
into `ciphers[i]`; both indexings can go out of bounds (`none`). -/
def ctrEncStep (E : List Nat → List Nat → List Nat) (key nonce : List Nat)
    (blocks : List (List Nat)) (st : Option (List (List Nat) × List Nat))
    (i : Nat) : Option (List (List Nat) × List Nat) :=
  match st with
  | none => none
  | some (ciphers, counter) =>
    let v := E (concat_arrays nonce counter) key
    match getIdx blocks i with
    | none => none
    | some bi =>
      match setIdx ciphers i (xor_arrays bi v) with
      | none => none
      | some ciphers2 => some (ciphers2, increment_counter counter)

/-- `ctr_encrypt` from the source, with `ctrEncStep` run for `i` in
`1 ..= blocks.len()` starting from `ciphers = vec![nonce]` and an
all-zero 8-byte counter. -/
def ctr_encrypt (E : List Nat → List Nat → List Nat)
    (plain_text key nonce : List Nat) : Option (List Nat) :=
  match group (pad plain_text) with
  | none => none
  | some blocks =>
    match (List.range' 1 blocks.length).foldl (ctrEncStep E key nonce blocks)
        (some ([nonce], List.replicate 8 0)) with
    | none => none
    | some (ciphers, _) => some (un_group ciphers)

/-- `ctr_decrypt` from the source: read `ciphers[0]` as the nonce block and
remove it, then for `i` in `0 .. ciphers.len()` compute
`v = aes_decrypt(concat_arrays(nonce, counter))` — note the source calls
the block-cipher DECRYPT here, so only `D` appears — and assign
`blocks[i] = xor_arrays(ciphers[i], v)` into the empty vector `blocks`
(an out-of-bounds write, `none`); finally un-pad. -/
def ctr_decrypt (D : List Nat → List Nat → List Nat)
    (cipher_text key : List Nat) : Option (List Nat) :=
  match group cipher_text with
  | none => none
  | some ciphers0 =>
    match getIdx ciphers0 0 with
    | none => none
    | some nonce =>
      match removeAt ciphers0 0 with
      | none => none
      | some ciphers =>
        let step : Option (List (List Nat) × List Nat) → Nat →
            Option (List (List Nat) × List Nat) := fun st i =>
          match st with
          | none => none
          | some (blocks, counter) =>
            let v := D (concat_arrays nonce counter) key
            match getIdx ciphers i with
            | none => none
            | some ci =>
              match setIdx blocks i (xor_arrays ci v) with
              | none => none
              | some blocks2 => some (blocks2, increment_counter counter)
        match (List.range ciphers.length).foldl step
            (some ([], List.replicate 8 0)) with
        | none => none
        | some (blocks, _) => un_pad (un_group blocks)

/-! ## Padding lemmas -/

theorem pad_length_mod (data : List Nat) : (pad data).length % 16 = 0 := by
  simp only [pad, List.length_append, List.length_replicate]
  omega

theorem pad_length_gt (data : List Nat) : data.length < (pad data).length := by
  simp only [pad, List.length_append, List.length_replicate]
  omega

theorem popN_eq_take : ∀ (m : Nat) (l : List Nat),
    popN l m = l.take (l.length - m)
  | 0, l => by simp [popN]
  | m + 1, l => by
    rw [popN, popN_eq_take m l.dropLast, List.dropLast_eq_take, List.take_take,
      List.length_take]
    congr 1
    omega

theorem un_pad_pad (data : List Nat) : un_pad (pad data) = some data := by
  have hk : 1 ≤ 16 - data.length % 16 := by omega
  set k := 16 - data.length % 16 with hkdef
  have hrep : List.replicate k k = List.replicate (k - 1) k ++ [k] := by
    calc List.replicate k k = List.replicate ((k - 1) + 1) k := by
          rw [show (k - 1) + 1 = k from by omega]
      _ = List.replicate (k - 1) k ++ [k] := List.replicate_succ' _ _
  have hpad : pad data = (data ++ List.replicate (k - 1) k) ++ [k] := by
    rw [pad, ← hkdef, hrep, List.append_assoc]
  have h1 : (pad data).getLast? = some k := by
    rw [hpad, List.getLast?_concat]
  have h2 : (pad data).dropLast = data ++ List.replicate (k - 1) k := by
    rw [hpad, List.dropLast_concat]
  rw [un_pad.eq_def, h1]
  simp only
  rw [if_neg (by omega), h2, popN_eq_take, List.length_append,
    List.length_replicate]
  congr 1
  rw [show data.length + (k - 1) - (k - 1) = data.length from by omega]
  exact List.take_left' rfl

/-! ## Grouping lemmas -/

theorem groupF_sound : ∀ (fuel : Nat) (data : List Nat),
    data.length ≤ fuel → data.length % 16 = 0 →
    ∃ bs, groupF fuel data = some bs ∧ bs.flatten = data ∧
      ∀ b ∈ bs, b.length = 16
  | fuel, [], _, _ => ⟨[], by cases fuel <;> rfl, rfl, by simp⟩
  | 0, a :: rest, hle, _ => by simp at hle
  | fuel + 1, a :: rest, hle, hmod => by
    have hlen : (a :: rest).length = rest.length + 1 := rfl
    rw [hlen] at hle hmod
    have h16 : 16 ≤ (a :: rest).length := by rw [hlen]; omega
    have hdmod : ((a :: rest).drop 16).length % 16 = 0 := by
      rw [List.length_drop, hlen]; omega
    have hdle : ((a :: rest).drop 16).length ≤ fuel := by
      rw [List.length_drop, hlen]; omega
    obtain ⟨bs, h1, h2, h3⟩ := groupF_sound fuel ((a :: rest).drop 16) hdle hdmod
    refine ⟨(a :: rest).take 16 :: bs, ?_, ?_, ?_⟩
    · simp only [groupF]
      rw [if_pos h16, h1]
    · rw [List.flatten_cons, h2, List.take_append_drop]
    · intro b hbm
      rcases List.mem_cons.mp hbm with rfl | hbm
      · rw [List.length_take, hlen]
        rw [hlen] at h16
        omega
      · exact h3 b hbm

theorem group_pad (pt : List Nat) :
    ∃ bs, group (pad pt) = some bs ∧ bs.flatten = pad pt ∧
      ∀ b ∈ bs, b.length = 16 :=
  groupF_sound (pad pt).length (pad pt) le_rfl (pad_length_mod pt)

theorem groupF_flatten : ∀ (bs : List (List Nat)) (fuel : Nat),
    (∀ b ∈ bs, b.length = 16) → bs.flatten.length ≤ fuel →
    groupF fuel bs.flatten = some bs
  | [], fuel, _, _ => by cases fuel <;> rfl
  | b :: rest, fuel, hlen, hfuel => by
    have hb : b.length = 16 := hlen b (List.mem_cons_self b rest)
    have hflatlen : (b :: rest).flatten.length = 16 + rest.flatten.length := by
      rw [List.flatten_cons, List.length_append, hb]
    cases fuel with
    | zero =>
      rw [hflatlen] at hfuel
      omega
    | succ f =>
      cases b with
      | nil => simp at hb
      | cons x xs =>
        have hxs : xs.length = 15 := by
          rw [List.length_cons] at hb
          omega
        rw [List.flatten_cons, List.cons_append]
        have hlen2 : (x :: (xs ++ rest.flatten)).length =
            16 + rest.flatten.length := by
          simp only [List.length_cons, List.length_append, hxs]
          omega
        simp only [groupF]
        rw [if_pos (by rw [hlen2]; omega)]
        have hdrop : (x :: (xs ++ rest.flatten)).drop 16 = rest.flatten := by
          rw [← List.cons_append]
          exact List.drop_left' (by rw [List.length_cons, hxs])
        have htake : (x :: (xs ++ rest.flatten)).take 16 = x :: xs := by
          rw [← List.cons_append]
          exact List.take_left' (by rw [List.length_cons, hxs])
        rw [hdrop, htake,
          groupF_flatten rest f
            (fun u hu => hlen u (List.mem_cons_of_mem _ hu))
            (by rw [hflatlen] at hfuel; omega)]

theorem group_flatten (bs : List (List Nat))
    (h : ∀ b ∈ bs, b.length = 16) : group bs.flatten = some bs :=
  groupF_flatten bs bs.flatten.length h le_rfl

theorem group_pad_ne_nil {pt : List Nat} {bs : List (List Nat)}
    (h2 : bs.flatten = pad pt) : bs ≠ [] := by
  intro h
  subst h
  have h0 : (pad pt).length = 0 := by rw [← h2]; rfl
  have := pad_length_gt pt
  omega

/-! ## Counter lemmas -/

theorem fromLE_lt : ∀ l : List Nat, (∀ b ∈ l, b < 256) →
    fromLE l < 256 ^ l.length
  | [], _ => by simp [fromLE]
  | b :: rest, h => by
    have hb : b < 256 := h b (List.mem_cons_self _ _)
    have ih := fromLE_lt rest (fun x hx => h x (List.mem_cons_of_mem _ hx))
    simp only [fromLE, List.length_cons, pow_succ]
    generalize (256 : Nat) ^ rest.length = p at ih ⊢
    omega

theorem incLE_length : ∀ l : List Nat, (incLE l).length = l.length
  | [] => rfl
  | b :: rest => by
    by_cases hb : b = 255 <;> simp [incLE, hb, incLE_length rest]

theorem incLE_bytes : ∀ l : List Nat, (∀ b ∈ l, b < 256) →
    ∀ b ∈ incLE l, b < 256
  | [], _ => by simp [incLE]
  | a :: rest, h => by
    have ha : a < 256 := h a (List.mem_cons_self _ _)
    by_cases hA : a = 255
    · simp only [incLE, if_pos hA]
      intro b hbm
      rcases List.mem_cons.mp hbm with rfl | hbm
      · omega
      · exact incLE_bytes rest (fun x hx => h x (List.mem_cons_of_mem _ hx))
          b hbm
    · simp only [incLE, if_neg hA]
      intro b hbm
      rcases List.mem_cons.mp hbm with rfl | hbm
      · omega
      · exact h b (List.mem_cons_of_mem _ hbm)

theorem incLE_fromLE : ∀ l : List Nat, (∀ b ∈ l, b < 256) →
    fromLE (incLE l) = (fromLE l + 1) % 256 ^ l.length
  | [], _ => by simp [incLE, fromLE]
  | a :: rest, h => by
    have ha : a < 256 := h a (List.mem_cons_self _ _)
    have hrest : ∀ b ∈ rest, b < 256 :=
      fun x hx => h x (List.mem_cons_of_mem _ hx)
    by_cases hA : a = 255
    · subst hA
      have ih := incLE_fromLE rest hrest
      simp only [incLE, if_pos rfl, fromLE, List.length_cons, pow_succ]
      rw [ih]
      have hsum : 255 + 256 * fromLE rest + 1 = 256 * (fromLE rest + 1) := by
        ring
      rw [hsum, mul_comm ((256 : Nat) ^ rest.length) 256,
        Nat.mul_mod_mul_left, Nat.zero_add]
    · have hlt := fromLE_lt rest hrest
      simp only [incLE, if_neg hA, fromLE, List.length_cons, pow_succ]
      rw [Nat.mod_eq_of_lt]
      · ring
      · generalize (256 : Nat) ^ rest.length = p at hlt ⊢
        omega

/-! ## Loop lemmas -/

theorem foldl_step_none {σ : Type} (step : Option σ → Nat → Option σ)
    (h : ∀ i, step none i = none) :
    ∀ l : List Nat, l.foldl step none = none
  | [] => rfl
  | i :: l => by
    rw [List.foldl_cons, h i]
    exact foldl_step_none step h l

/-! ## Claim theorems -/

/-- C1.  The CBC round trip fails: `cbc_encrypt` indexes `ciphers[1]` into
the length-1 vector `vec![iv]` (and `blocks[blocks.len()]` past the end of
`blocks`) on its very first loop iteration, so it panics (`none`) for every
plaintext, key and IV, and no ciphertext is ever produced for
`cbc_decrypt` to round-trip. -/
theorem cbc_round_trip_fails (E : List Nat → List Nat → List Nat)
    (pt key iv : List Nat) : cbc_encrypt E pt key iv = none := by
  obtain ⟨bs, h1, h2, h3⟩ := group_pad pt
  obtain ⟨b0, rest, rfl⟩ := List.exists_cons_of_ne_nil (group_pad_ne_nil h2)
  have hstep1 : cbcEncStep E key (b0 :: rest) (some ([iv], iv)) 1 = none := by
    cases rest with
    | nil => rfl
    | cons b1 r => rfl
  unfold cbc_encrypt
  rw [h1]
  dsimp only
  rw [show (b0 :: rest).length = rest.length + 1 from rfl, List.range'_succ,
    List.foldl_cons, hstep1, foldl_step_none _ (fun i => rfl) _]

/-- C2.  The CTR round trip fails: `ctr_encrypt` indexes `ciphers[1]` into
the length-1 vector `vec![nonce]` (and `blocks[blocks.len()]` past the end
of `blocks`) on its very first loop iteration, so it panics (`none`) for
every plaintext, key and nonce, and no ciphertext is ever produced for
`ctr_decrypt` to round-trip. -/
theorem ctr_round_trip_fails (E : List Nat → List Nat → List Nat)
    (pt key nonce : List Nat) : ctr_encrypt E pt key nonce = none := by
  obtain ⟨bs, h1, h2, h3⟩ := group_pad pt
  obtain ⟨b0, rest, rfl⟩ := List.exists_cons_of_ne_nil (group_pad_ne_nil h2)
  have hstep1 : ctrEncStep E key nonce (b0 :: rest)
      (some ([nonce], List.replicate 8 0)) 1 = none := by
    cases rest with
    | nil => rfl
    | cons b1 r => rfl
  unfold ctr_encrypt
  rw [h1]
  dsimp only
  rw [show (b0 :: rest).length = rest.length + 1 from rfl, List.range'_succ,
    List.foldl_cons, hstep1, foldl_step_none _ (fun i => rfl) _]

/-- C3.  The ECB round trip holds: for every plaintext of length at most
1000 and every key, provided the block-cipher collaborator maps 16-byte
blocks to 16-byte blocks and satisfies the decrypt-of-encrypt contract,
`ecb_decrypt` of `ecb_encrypt` returns the original plaintext. -/
theorem ecb_round_trip (E D : List Nat → List Nat → List Nat)
    (pt key : List Nat)
    (hE : ∀ x, x.length = 16 → (E x key).length = 16)
    (hRT : ∀ x, x.length = 16 → D (E x key) key = x)
    (hL : pt.length ≤ 1000) :
    ∃ ct, ecb_encrypt E pt key = some ct ∧
      ecb_decrypt D ct key = some pt := by
  obtain ⟨bs, h1, h2, h3⟩ := group_pad pt
  refine ⟨un_group (bs.map (fun b => E b key)), ?_, ?_⟩
  · unfold ecb_encrypt
    rw [h1]
  · have hlen : ∀ b ∈ bs.map (fun b => E b key), b.length = 16 := by
      intro b hbm
      obtain ⟨a, ha, rfl⟩ := List.mem_map.mp hbm
      exact hE a (h3 a ha)
    have hg : group (un_group (bs.map (fun b => E b key))) =
        some (bs.map (fun b => E b key)) := group_flatten _ hlen
    unfold ecb_decrypt
    rw [hg]
    dsimp only
    have hmap : (bs.map (fun b => E b key)).map (fun c => D c key) = bs := by
      rw [List.map_map]
      have hcg : ∀ b ∈ bs, ((fun c => D c key) ∘ (fun b => E b key)) b =
          id b := by
        intro b hbm
        simp only [Function.comp_apply, id]
        exact hRT b (h3 b hbm)
      rw [List.map_congr_left hcg, List.map_id]
    rw [hmap]
    unfold un_group
    rw [h2, un_pad_pad]

theorem ecb_round_trip_check :
    ∃ ct, ecb_encrypt (fun b _ => b) [42] (List.replicate 16 0) = some ct ∧
      ecb_decrypt (fun b _ => b) ct (List.replicate 16 0) = some [42] :=
  ecb_round_trip (fun b _ => b) (fun b _ => b) [42] (List.replicate 16 0)
    (fun x hx => hx) (fun x _ => rfl) (by decide)

/-- C4.  `un_pad` performs no validation at all: on `[1, 2, 3, 2]` the last
byte is `2` but the last two bytes are `[3, 2]`, which is invalid padding,
yet `un_pad` succeeds and returns `[1, 2]` instead of failing. -/
theorem un_pad_no_validation : un_pad [1, 2, 3, 2] = some [1, 2] := by
  decide

/-- C5.  `pad` appends exactly `k = 16 - len % 16` bytes, each equal to
`k`, with `k` in `[1, 16]`; the padded length is a multiple of 16 and
strictly larger than the input length, and an exact multiple of 16 gets a
full extra block of bytes `0x10`. -/
theorem pad_spec (data : List Nat) :
    ∃ k, k = 16 - data.length % 16 ∧ 1 ≤ k ∧ k ≤ 16 ∧
      pad data = data ++ List.replicate k k ∧
      (pad data).length = data.length + k ∧
      (pad data).length % 16 = 0 ∧
      data.length < (pad data).length ∧
      (data.length % 16 = 0 →
        k = 16 ∧ pad data = data ++ List.replicate 16 16) := by
  refine ⟨16 - data.length % 16, rfl, by omega, by omega, rfl, ?_,
    pad_length_mod data, pad_length_gt data, ?_⟩
  · simp [pad]
  · intro h
    refine ⟨by omega, ?_⟩
    rw [pad, h]

theorem pad_spec_check :
    ∃ k, k = 16 - ([] : List Nat).length % 16 ∧ 1 ≤ k ∧ k ≤ 16 ∧
      pad [] = [] ++ List.replicate k k ∧
      (pad []).length = ([] : List Nat).length + k ∧
      (pad []).length % 16 = 0 ∧
      ([] : List Nat).length < (pad []).length ∧
      (([] : List Nat).length % 16 = 0 →
        k = 16 ∧ pad [] = [] ++ List.replicate 16 16) :=
  pad_spec []

/-- C6.  `cbc_decrypt` never recovers a plaintext block at all: on the
well-formed 32-byte ciphertext `IV ‖ C[0]` it assigns `blocks[0]` into the
empty vector `blocks` and panics (`none`) — and, as the definition of
`cbc_decrypt` records, its chaining variable is updated to the recovered
plaintext block `blocks[i]`, not the ciphertext block, contrary to the
claim. -/
theorem cbc_decrypt_panics (D : List Nat → List Nat → List Nat)
    (key : List Nat) :
    cbc_decrypt D (List.replicate 32 0) key = none := rfl

/-- C7.  `ctr_decrypt` neither encrypts `V` nor recovers any plaintext
block: its keystream is computed with the block-cipher DECRYPT collaborator
(the definition of `ctr_decrypt` only takes `D`), and on the well-formed
32-byte ciphertext `nonce_block ‖ C[0]` it assigns `blocks[0]` into the
empty vector `blocks` and panics (`none`). -/
theorem ctr_decrypt_panics (D : List Nat → List Nat → List Nat)
    (key : List Nat) :
    ctr_decrypt D (List.replicate 32 0) key = none := rfl

/-- C8.  `ecb_decrypt` does not return an `InvalidCiphertextLength`
failure result on a length-1 ciphertext: the source has no error type at
all, and the 16-byte slice taken by `group` panics out of bounds
(modelled by `none`). -/
theorem ecb_decrypt_bad_length (D : List Nat → List Nat → List Nat)
    (key : List Nat) : ecb_decrypt D [0] key = none := rfl

/-- C9.  `increment_counter` is big-endian increment modulo `2 ^ 64`: on
any 8-byte counter with byte values below 256, the resulting bytes encode
`(v + 1) % 2 ^ 64` where `v` is the big-endian value of the input, and the
result is again an 8-byte counter with byte values below 256 (so a
trailing `0xFF` carries and the all-`0xFF` counter wraps to all-zero). -/
theorem increment_counter_spec (c : List Nat) (h8 : c.length = 8)
    (hb : ∀ b ∈ c, b < 256) :
    fromBE (increment_counter c) = (fromBE c + 1) % 2 ^ 64 ∧
    (increment_counter c).length = 8 ∧
    (∀ b ∈ increment_counter c, b < 256) := by
  have hrev : ∀ b ∈ c.reverse, b < 256 :=
    fun b hbm => hb b (List.mem_reverse.mp hbm)
  have hpow : (256 : Nat) ^ c.reverse.length = 2 ^ 64 := by
    rw [List.length_reverse, h8]
    norm_num
  refine ⟨?_, ?_, ?_⟩
  · rw [fromBE, increment_counter, List.reverse_reverse,
      incLE_fromLE c.reverse hrev, hpow, fromBE]
  · rw [increment_counter, List.length_reverse, incLE_length,
      List.length_reverse, h8]
  · intro b hbm
    rw [increment_counter, List.mem_reverse] at hbm
    exact incLE_bytes c.reverse hrev b hbm

theorem increment_counter_spec_check :
    (List.replicate 8 255).length = 8 ∧
    fromBE (increment_counter (List.replicate 8 255)) =
      (fromBE (List.replicate 8 255) + 1) % 2 ^ 64 :=
  ⟨by decide, (increment_counter_spec (List.replicate 8 255) (by decide)
    (by decide)).1⟩

/-- C10.  `un_pad` on the empty byte sequence panics (`Vec::pop` returns
`None` and `unwrap` aborts), modelled as the `none` error case of the
embedding; consequently `ecb_decrypt` on an empty ciphertext yields no
result either. -/
theorem un_pad_empty_panics :
    un_pad [] = none ∧
    ∀ (D : List Nat → List Nat → List Nat) (key : List Nat),
      ecb_decrypt D [] key = none :=
  ⟨rfl, fun D key => rfl⟩
